import Mathlib

/-!
Verification of the Conviction Engine v3 core (`src/app.py`) against its
natural-language specification.

The three Python functions `calculate_moving_average`, `calculate_rsi` and
`generate_signals` are embedded as computable Lean functions over `ℚ`
(Python float arithmetic is modelled exactly by rational arithmetic; all
operations used are +, −, ·, /, max, min, abs and comparisons).
A Python `ValueError` is modelled by the `Except String` error monad, and
Python `None` entries of indicator lists by `Option ℚ`.
-/

namespace ConvictionEngine

/-- One entry of the moving-average output: Python's
`None if i + 1 < period else sum(data[i - period + 1 : i + 1]) / period`
(the slice has length `period` because in that branch `i + 1 ≥ period`). -/
def maEntry (data : List ℚ) (period : ℤ) (i : ℕ) : Option ℚ :=
  if (i : ℤ) + 1 < period then none
  else some (((data.drop (i + 1 - period.toNat)).take period.toNat).sum / (period : ℚ))

/-- Embedding of `calculate_moving_average` (src/app.py lines 16–33). -/
def calculate_moving_average (data : List ℚ) (period : ℤ) :
    Except String (List (Option ℚ)) :=
  if period ≤ 0 then .error "Period must be positive"
  else .ok ((List.range data.length).map (maEntry data period))

/-- Embedding of `deltas = [prices[i] - prices[i-1] for i in range(1, len(prices))]`
(src/app.py line 50), reindexed by `j = i - 1`. -/
def deltasOf (prices : List ℚ) : List ℚ :=
  (List.range (prices.length - 1)).map (fun j => prices.getD (j + 1) 0 - prices.getD j 0)

/-- Embedding of `gains = [max(delta, 0) for delta in deltas]` (src/app.py line 51). -/
def gainsOf (prices : List ℚ) : List ℚ :=
  (deltasOf prices).map (fun d => max d 0)

/-- Embedding of `losses = [abs(min(delta, 0)) for delta in deltas]` (src/app.py line 52). -/
def lossesOf (prices : List ℚ) : List ℚ :=
  (deltasOf prices).map (fun d => |min d 0|)

/-- `avg_gain = sum(gains[:period]) / period` (src/app.py line 55). -/
def seedAvgGain (prices : List ℚ) (period : ℤ) : ℚ :=
  ((gainsOf prices).take period.toNat).sum / (period : ℚ)

/-- `avg_loss = sum(losses[:period]) / period` (src/app.py line 56). -/
def seedAvgLoss (prices : List ℚ) (period : ℤ) : ℚ :=
  ((lossesOf prices).take period.toNat).sum / (period : ℚ)

/-- `rs = avg_gain / avg_loss if avg_loss != 0 else 0` (src/app.py lines 59 and 68). -/
def rsOf (ag al : ℚ) : ℚ :=
  if al ≠ 0 then ag / al else 0

/-- `100 - (100 / (1 + rs))` (src/app.py lines 60 and 69). -/
def rsiVal (ag al : ℚ) : ℚ :=
  100 - 100 / (1 + rsOf ag al)

/-- The RSI loop of src/app.py lines 63–69: given the period (as a rational),
the current smoothed averages and the remaining (gain, loss) pairs, produce the
list of subsequent RSI values.  Each step performs the Wilder updates
`avg_gain = ((avg_gain * (period - 1)) + gain) / period` (line 66) and
`avg_loss = ((avg_loss * (period - 1)) + loss) / period` (line 67) and appends
`100 - (100 / (1 + rs))`. -/
def rsiFrom (q : ℚ) : ℚ → ℚ → List (ℚ × ℚ) → List ℚ
  | _, _, [] => []
  | ag, al, (g, l) :: rest =>
      rsiVal ((ag * (q - 1) + g) / q) ((al * (q - 1) + l) / q) ::
        rsiFrom q ((ag * (q - 1) + g) / q) ((al * (q - 1) + l) / q) rest

/-- Embedding of `calculate_rsi` (src/app.py lines 36–70).
The output is `[None] * period`, then the seed RSI value (line 60), then the
loop values for price indices `period + 1 .. len(prices) - 1`; the loop at
index `i` reads `gains[i-1]` and `losses[i-1]`, i.e. the entries of
`gains`/`losses` from index `period` on. -/
def calculate_rsi (prices : List ℚ) (period : ℤ) :
    Except String (List (Option ℚ)) :=
  if period ≤ 0 then .error "RSI period must be positive"
  else if (prices.length : ℤ) < period + 1 then
    .ok (List.replicate prices.length none)
  else
    .ok (List.replicate period.toNat (none : Option ℚ) ++
      some (rsiVal (seedAvgGain prices period) (seedAvgLoss prices period)) ::
        (rsiFrom (period : ℚ) (seedAvgGain prices period) (seedAvgLoss prices period)
          (((gainsOf prices).drop period.toNat).zip
            ((lossesOf prices).drop period.toNat))).map some)

/-- The per-index signal decision of src/app.py lines 99–114: `HOLD` when any
indicator is `None`; else `BUY` when `ma_short[i] > ma_long[i] and rsi[i] < oversold`;
else `SELL` when `ma_short[i] < ma_long[i] and rsi[i] > overbought`; else `HOLD`. -/
def signalAt (ms ml r : Option ℚ) (oversold overbought : ℚ) : String :=
  match ms, ml, r with
  | some s, some l, some rv =>
      if l < s ∧ rv < oversold then "BUY"
      else if s < l ∧ overbought < rv then "SELL"
      else "HOLD"
  | _, _, _ => "HOLD"

/-- Embedding of `generate_signals` (src/app.py lines 73–115).  The Python
defaults are `oversold = 30`, `overbought = 70`; here they are explicit
arguments.  A `ValueError` raised by either indicator propagates. -/
def generate_signals (prices : List ℚ) (short_period long_period rsi_period : ℤ)
    (oversold overbought : ℚ) : Except String (List String) :=
  match calculate_moving_average prices short_period with
  | .error e => .error e
  | .ok ma_short =>
    match calculate_moving_average prices long_period with
    | .error e => .error e
    | .ok ma_long =>
      match calculate_rsi prices rsi_period with
      | .error e => .error e
      | .ok rsi =>
        .ok ((List.range prices.length).map (fun i =>
          signalAt (ma_short.getD i none) (ma_long.getD i none) (rsi.getD i none)
            oversold overbought))

/-! ### Generic list-access helper lemmas -/

theorem getD_map_range {α : Type} (f : ℕ → α) (d : α) {m k : ℕ} (hk : k < m) :
    ((List.range m).map f).getD k d = f k := by
  simp [List.getElem?_range hk]

theorem getD_append_lt {α : Type} (l1 l2 : List α) (d : α) {k : ℕ} (hk : k < l1.length) :
    (l1 ++ l2).getD k d = l1.getD k d := by
  simp [List.getElem?_append_left hk]

theorem getD_append_ge {α : Type} (l1 l2 : List α) (d : α) (k : ℕ) :
    (l1 ++ l2).getD (l1.length + k) d = l2.getD k d := by
  simp [List.getElem?_append_right (Nat.le_add_right l1.length k)]

theorem getD_replicate_lt {α : Type} (a d : α) {m k : ℕ} (hk : k < m) :
    (List.replicate m a).getD k d = a := by
  simp [List.getElem?_replicate_of_lt hk]

theorem getD_drop {α : Type} (l : List α) (d : α) (m k : ℕ) :
    (l.drop m).getD k d = l.getD (m + k) d := by
  simp [List.getElem?_drop]

theorem getD_zip {α β : Type} (l1 : List α) (l2 : List β) (d1 : α) (d2 : β)
    {k : ℕ} (hk1 : k < l1.length) (hk2 : k < l2.length) :
    (l1.zip l2).getD k (d1, d2) = (l1.getD k d1, l2.getD k d2) := by
  have hk : k < (l1.zip l2).length := by simp [hk1, hk2]
  rw [List.getD_eq_getElem _ _ hk, List.getD_eq_getElem _ _ hk1,
    List.getD_eq_getElem _ _ hk2, List.getElem_zip]

theorem getD_map_some {α : Type} (l : List α) (k : ℕ) (hk : k < l.length) (d : α) :
    (l.map some).getD k none = some (l.getD k d) := by
  rw [List.getD_eq_getElem?_getD, List.getElem?_map, List.getD_eq_getElem _ _ hk]
  simp [List.getElem?_eq_getElem hk]

/-! ### Basic facts about the embedded functions -/

theorem length_rsiFrom (q : ℚ) :
    ∀ (ag al : ℚ) (pairs : List (ℚ × ℚ)), (rsiFrom q ag al pairs).length = pairs.length
  | _, _, [] => rfl
  | ag, al, (g, l) :: rest => by
      simpa [rsiFrom] using length_rsiFrom q _ _ rest

theorem length_gainsOf (prices : List ℚ) : (gainsOf prices).length = prices.length - 1 := by
  simp [gainsOf, deltasOf]

theorem length_lossesOf (prices : List ℚ) : (lossesOf prices).length = prices.length - 1 := by
  simp [lossesOf, deltasOf]

theorem toNat_cast_rat {period : ℤ} (hp : 1 ≤ period) : ((period.toNat : ℚ)) = (period : ℚ) := by
  have h := Int.toNat_of_nonneg (by omega : (0 : ℤ) ≤ period)
  exact_mod_cast congrArg (fun z : ℤ => (z : ℚ)) h

theorem ma_ok (data : List ℚ) (period : ℤ) (hp : 1 ≤ period) :
    calculate_moving_average data period =
      .ok ((List.range data.length).map (maEntry data period)) := by
  rw [calculate_moving_average, if_neg (by omega)]

theorem rsi_ok_short (prices : List ℚ) (period : ℤ) (hp : 1 ≤ period)
    (hl : (prices.length : ℤ) < period + 1) :
    calculate_rsi prices period = .ok (List.replicate prices.length none) := by
  rw [calculate_rsi, if_neg (by omega), if_pos hl]

theorem rsi_ok_long (prices : List ℚ) (period : ℤ) (hp : 1 ≤ period)
    (hl : period + 1 ≤ (prices.length : ℤ)) :
    calculate_rsi prices period =
      .ok (List.replicate period.toNat (none : Option ℚ) ++
        some (rsiVal (seedAvgGain prices period) (seedAvgLoss prices period)) ::
          (rsiFrom (period : ℚ) (seedAvgGain prices period) (seedAvgLoss prices period)
            (((gainsOf prices).drop period.toNat).zip
              ((lossesOf prices).drop period.toNat))).map some) := by
  rw [calculate_rsi, if_neg (by omega), if_neg (by omega)]

theorem rsi_ok (prices : List ℚ) (period : ℤ) (hp : 1 ≤ period) :
    ∃ l, calculate_rsi prices period = .ok l ∧ l.length = prices.length := by
  by_cases hl : (prices.length : ℤ) < period + 1
  · exact ⟨_, rsi_ok_short prices period hp hl, by simp⟩
  · refine ⟨_, rsi_ok_long prices period hp (by omega), ?_⟩
    have hpN : period.toNat + 1 ≤ prices.length := by omega
    simp only [List.length_append, List.length_replicate, List.length_cons,
      List.length_map, length_rsiFrom, List.length_zip, List.length_drop,
      length_gainsOf, length_lossesOf]
    omega

theorem generate_signals_ok (prices : List ℚ) (sp lp rp : ℤ) (os ob : ℚ)
    (mas mal r : List (Option ℚ))
    (hm : calculate_moving_average prices sp = .ok mas)
    (hl : calculate_moving_average prices lp = .ok mal)
    (hr : calculate_rsi prices rp = .ok r) :
    generate_signals prices sp lp rp os ob =
      .ok ((List.range prices.length).map (fun i =>
        signalAt (mas.getD i none) (mal.getD i none) (r.getD i none) os ob)) := by
  simp only [generate_signals, hm, hl, hr]

theorem list_sum_eq_sum_getD (l : List ℚ) :
    l.sum = ∑ j ∈ Finset.range l.length, l.getD j 0 := by
  induction l with
  | nil => simp
  | cons a t ih =>
      rw [List.sum_cons, List.length_cons, Finset.sum_range_succ', ih]
      simp [add_comm]

theorem sum_slice (data : List ℚ) (a p : ℕ) (h : a + p ≤ data.length) :
    ((data.drop a).take p).sum = ∑ j ∈ Finset.range p, data.getD (a + j) 0 := by
  have hlen : ((data.drop a).take p).length = p := by simp; omega
  rw [list_sum_eq_sum_getD, hlen]
  refine Finset.sum_congr rfl (fun j hj => ?_)
  have hj' : j < p := Finset.mem_range.mp hj
  rw [List.getD_eq_getElem _ _ (by rw [hlen]; exact hj'),
    List.getD_eq_getElem _ _ (by omega : a + j < data.length)]
  simp

/-! ### Spec-side definitions for the RSI recurrence (claim C1)

These transcribe the claim's own formulas: `gain[j] = max(series[j+1] − series[j], 0)`,
`loss[j] = max(−(series[j+1] − series[j]), 0)`, seed averages as arithmetic means of
the first `period` gains resp. losses, and the Wilder recurrences
`avg' = (avg·(period−1) + x[i-1]) / period` applied to the previous step's value. -/

def gainSpec (s : List ℚ) (j : ℕ) : ℚ := max (s.getD (j + 1) 0 - s.getD j 0) 0

def lossSpec (s : List ℚ) (j : ℕ) : ℚ := max (-(s.getD (j + 1) 0 - s.getD j 0)) 0

/-- The spec's smoothed average gain after `k` Wilder updates beyond the seed:
`avgGainSpec s p 0` is the arithmetic mean of the first `p` gains, and the update
for price index `p + k + 1` folds in `gain[p + k]`. -/
def avgGainSpec (s : List ℚ) (p : ℕ) : ℕ → ℚ
  | 0 => ((List.range p).map (gainSpec s)).sum / (p : ℚ)
  | k + 1 => (avgGainSpec s p k * ((p : ℚ) - 1) + gainSpec s (p + k)) / (p : ℚ)

/-- The spec's smoothed average loss, analogous to `avgGainSpec`. -/
def avgLossSpec (s : List ℚ) (p : ℕ) : ℕ → ℚ
  | 0 => ((List.range p).map (lossSpec s)).sum / (p : ℚ)
  | k + 1 => (avgLossSpec s p k * ((p : ℚ) - 1) + lossSpec s (p + k)) / (p : ℚ)

theorem abs_min_zero (d : ℚ) : |min d 0| = max (-d) 0 := by
  rcases le_total d 0 with h | h
  · rw [min_eq_left h, abs_of_nonpos h, max_eq_left (by linarith)]
  · rw [min_eq_right h, abs_zero, max_eq_right (by linarith)]

theorem gainsOf_eq_map (s : List ℚ) :
    gainsOf s = (List.range (s.length - 1)).map (gainSpec s) := by
  simp only [gainsOf, deltasOf, List.map_map]
  rfl

theorem lossesOf_eq_map (s : List ℚ) :
    lossesOf s = (List.range (s.length - 1)).map (lossSpec s) := by
  simp only [lossesOf, deltasOf, List.map_map]
  exact List.map_congr_left (fun j _ => abs_min_zero _)

theorem seedAvgGain_eq (s : List ℚ) (period : ℤ) (hp : 1 ≤ period)
    (hlen : period + 1 ≤ (s.length : ℤ)) :
    seedAvgGain s period = avgGainSpec s period.toNat 0 := by
  simp only [seedAvgGain, avgGainSpec, gainsOf_eq_map, ← List.map_take, List.take_range,
    Nat.min_eq_left (by omega : period.toNat ≤ s.length - 1), toNat_cast_rat hp]

theorem seedAvgLoss_eq (s : List ℚ) (period : ℤ) (hp : 1 ≤ period)
    (hlen : period + 1 ≤ (s.length : ℤ)) :
    seedAvgLoss s period = avgLossSpec s period.toNat 0 := by
  simp only [seedAvgLoss, avgLossSpec, lossesOf_eq_map, ← List.map_take, List.take_range,
    Nat.min_eq_left (by omega : period.toNat ≤ s.length - 1), toNat_cast_rat hp]

theorem pairs_getD (s : List ℚ) (p k : ℕ) (hk : p + k < s.length - 1) :
    (((gainsOf s).drop p).zip ((lossesOf s).drop p)).getD k (0, 0) =
      (gainSpec s (p + k), lossSpec s (p + k)) := by
  rw [getD_zip _ _ _ _ (by rw [List.length_drop, length_gainsOf]; omega)
      (by rw [List.length_drop, length_lossesOf]; omega),
    getD_drop, getD_drop, gainsOf_eq_map, lossesOf_eq_map,
    getD_map_range _ _ (by omega), getD_map_range _ _ (by omega)]

/-- Indexing the RSI loop output: if `A` is any state trajectory satisfying the
Wilder update equation along `pairs`, then the `k`-th loop value is
`rsiVal` of the state after `k + 1` updates. -/
theorem rsiFrom_getD (q : ℚ) (pairs : List (ℚ × ℚ)) :
    ∀ A : ℕ → ℚ × ℚ,
      (∀ k < pairs.length,
        A (k + 1) = (((A k).1 * (q - 1) + (pairs.getD k (0, 0)).1) / q,
                     ((A k).2 * (q - 1) + (pairs.getD k (0, 0)).2) / q)) →
      ∀ k < pairs.length,
        (rsiFrom q (A 0).1 (A 0).2 pairs).getD k 0 =
          rsiVal (A (k + 1)).1 (A (k + 1)).2 := by
  induction pairs with
  | nil => intro A _ k hk; simp at hk
  | cons gl rest ih =>
      intro A hA k hk
      obtain ⟨g, l⟩ := gl
      have h0 : A 1 = (((A 0).1 * (q - 1) + g) / q, ((A 0).2 * (q - 1) + l) / q) := by
        simpa using hA 0 (by simp)
      cases k with
      | zero => simp [rsiFrom, h0]
      | succ k =>
          have hA2 : ∀ j < rest.length,
              A (j + 1 + 1) =
                (((A (j + 1)).1 * (q - 1) + (rest.getD j (0, 0)).1) / q,
                 ((A (j + 1)).2 * (q - 1) + (rest.getD j (0, 0)).2) / q) := by
            intro j hj
            simpa using hA (j + 1) (by simpa using Nat.succ_lt_succ hj)
          have hrec := ih (fun j => A (j + 1)) hA2 k (by simpa using hk)
          simp only [rsiFrom, List.getD_cons_succ]
          have e1 : ((A 0).1 * (q - 1) + g) / q = (A 1).1 := by rw [h0]
          have e2 : ((A 0).2 * (q - 1) + l) / q = (A 1).2 := by rw [h0]
          rw [e1, e2]
          exact hrec

theorem getD_replicate_append {α : Type} (a d : α) (l2 : List α) (p k : ℕ) :
    (List.replicate p a ++ l2).getD (p + k) d = l2.getD k d := by
  simpa using getD_append_ge (List.replicate p a) l2 d k

/-! ### Claim theorems -/

/-- C1: for every price series and every period ≥ 1 with `len(series) ≥ period + 1`,
`calculate_rsi` succeeds, is index-aligned, returns `none` at indices
`0..period-1`, and at every index `i ≥ period` returns `100 − 100/(1 + RS)`
where the average gain/loss are the seed arithmetic means (at `i = period`)
evolved by the Wilder recurrences
`avg' = (avg·(period−1) + gain[i-1])/period` applied to the previous step's
smoothed averages (for `i` from `period+1` to `n-1`). -/
theorem C1_rsi_recurrence (s : List ℚ) (period : ℤ) (hp : 1 ≤ period)
    (hlen : period + 1 ≤ (s.length : ℤ)) :
    ∃ l, calculate_rsi s period = .ok l ∧ l.length = s.length ∧
      (∀ i < period.toNat, l.getD i none = none) ∧
      (∀ i, period.toNat ≤ i → i < s.length →
        l.getD i none =
          some (rsiVal (avgGainSpec s period.toNat (i - period.toNat))
            (avgLossSpec s period.toNat (i - period.toNat)))) := by
  set p := period.toNat with hpdef
  have hp1 : 1 ≤ p := by omega
  have hpn : p + 1 ≤ s.length := by omega
  set pairs := ((gainsOf s).drop p).zip ((lossesOf s).drop p) with hpairs
  have hplen : pairs.length = s.length - 1 - p := by
    rw [hpairs, List.length_zip, List.length_drop, List.length_drop,
      length_gainsOf, length_lossesOf]
    omega
  refine ⟨_, rsi_ok_long s period hp hlen, ?_, ?_, ?_⟩
  · simp only [List.length_append, List.length_replicate, List.length_cons,
      List.length_map, length_rsiFrom, hplen]
    omega
  · intro i hi
    rw [getD_append_lt _ _ _ (by rw [List.length_replicate]; omega),
      getD_replicate_lt _ _ (show i < period.toNat from hi)]
  · intro i hpi hin
    obtain ⟨k, rfl⟩ : ∃ k, i = p + k := ⟨i - p, by omega⟩
    rw [getD_replicate_append, Nat.add_sub_cancel_left]
    set A : ℕ → ℚ × ℚ := fun j => (avgGainSpec s p j, avgLossSpec s p j) with hA
    have hseedG : seedAvgGain s period = (A 0).1 := seedAvgGain_eq s period hp hlen
    have hseedL : seedAvgLoss s period = (A 0).2 := seedAvgLoss_eq s period hp hlen
    cases k with
    | zero =>
        rw [List.getD_cons_zero, hseedG, hseedL]
    | succ k =>
        rw [List.getD_cons_succ]
        have hkb : k < pairs.length := by omega
        have hkl : k < (rsiFrom (period : ℚ) (seedAvgGain s period)
            (seedAvgLoss s period) pairs).length := by
          rw [length_rsiFrom]; exact hkb
        rw [getD_map_some _ _ hkl 0]
        have hAprop : ∀ j < pairs.length,
            A (j + 1) =
              (((A j).1 * ((period : ℚ) - 1) + (pairs.getD j (0, 0)).1) / (period : ℚ),
               ((A j).2 * ((period : ℚ) - 1) + (pairs.getD j (0, 0)).2) / (period : ℚ)) := by
          intro j hj
          rw [hpairs, pairs_getD s p j (by omega)]
          simp only [hA, avgGainSpec, avgLossSpec, toNat_cast_rat hp]
        have hrec := rsiFrom_getD (period : ℚ) pairs A hAprop k hkb
        rw [hseedG, hseedL, hrec]

/-- Witness for C1 at the concrete input `[1, 2, 3]` with period 1. -/
theorem C1_rsi_recurrence_witness :
    ∃ l, calculate_rsi [1, 2, 3] 1 = .ok l ∧
      l.getD 1 none =
        some (rsiVal (avgGainSpec [1, 2, 3] 1 0) (avgLossSpec [1, 2, 3] 1 0)) := by
  obtain ⟨l, h1, _, _, h4⟩ := C1_rsi_recurrence [1, 2, 3] 1 (by decide) (by decide)
  refine ⟨l, h1, ?_⟩
  simpa [show Int.toNat 1 = 1 from rfl] using h4 1 (by decide) (by decide)

/-- C2: for every list of numbers `data` and every period ≥ 1,
`calculate_moving_average data period` succeeds with a list of the same length
whose element at index `i` is `none` when `i ≤ period − 2` and otherwise equals
the arithmetic mean of `data[i-period+1..i]` (the `period` most recent values
ending at `i` inclusive); in particular
`calculate_moving_average [1,2,3,4,5] 3 = ok [none, none, 2, 3, 4]`. -/
theorem C2_moving_average (data : List ℚ) (period : ℤ) (hp : 1 ≤ period) :
    ∃ l, calculate_moving_average data period = .ok l ∧
      l.length = data.length ∧
      (∀ i < data.length,
        l.getD i none =
          if (i : ℤ) ≤ period - 2 then none
          else some ((∑ j ∈ Finset.range period.toNat,
            data.getD (i + 1 - period.toNat + j) 0) / (period : ℚ))) ∧
      calculate_moving_average [1, 2, 3, 4, 5] 3 =
        .ok [none, none, some 2, some 3, some 4] := by
  refine ⟨_, ma_ok data period hp, by simp, ?_,
    by norm_num [calculate_moving_average, maEntry, List.range_succ,
      show Int.toNat 3 = 3 from rfl]⟩
  intro i hi
  rw [getD_map_range _ _ hi]
  simp only [maEntry]
  by_cases h : (i : ℤ) + 1 < period
  · rw [if_pos h, if_pos (by omega)]
  · rw [if_neg h, if_neg (by omega)]
    have hple : period.toNat ≤ i + 1 := by omega
    rw [sum_slice data (i + 1 - period.toNat) period.toNat (by omega)]

/-- Witness for C2 at `[1, 2, 3, 4, 5]` with period 3. -/
theorem C2_moving_average_witness :
    calculate_moving_average [1, 2, 3, 4, 5] 3 =
      .ok [none, none, some 2, some 3, some 4] := by
  obtain ⟨l, -, -, -, h⟩ := C2_moving_average [1, 2, 3, 4, 5] 3 (by decide)
  exact h

/-- C4: whenever the smoothed average loss is 0 at a defined RSI index, the
code sets RS = 0 and outputs RSI = 0 (both the seed value at line 59–60 and
every loop value at line 68–69 are `rsiVal avg_gain avg_loss`); concretely,
`calculate_rsi [1,2,3,4,5,6,7,8] 3` is defined from index 3 on and every
defined output equals 0. -/
theorem C4_zero_avg_loss :
    (∀ ag : ℚ, rsOf ag 0 = 0 ∧ rsiVal ag 0 = 0) ∧
    calculate_rsi [1, 2, 3, 4, 5, 6, 7, 8] 3 =
      .ok [none, none, none, some 0, some 0, some 0, some 0, some 0] := by
  refine ⟨fun ag => ⟨by simp [rsOf], by simp [rsiVal, rsOf]⟩, ?_⟩
  norm_num [calculate_rsi, seedAvgGain, seedAvgLoss, gainsOf, lossesOf, deltasOf,
    rsiFrom, rsiVal, rsOf, List.range_succ, List.replicate, show Int.toNat 3 = 3 from rfl]

/-- C5: for every period ≥ 1 and every price series shorter than period + 1,
`calculate_rsi` does not fail and returns a list of `none` values of the same
length as the input. -/
theorem C5_rsi_short_series (prices : List ℚ) (period : ℤ)
    (hp : 1 ≤ period) (hl : (prices.length : ℤ) < period + 1) :
    calculate_rsi prices period = .ok (List.replicate prices.length none) :=
  rsi_ok_short prices period hp hl

/-- Witness for C5 at the concrete input `[1, 2]` with period 3. -/
theorem C5_rsi_short_series_witness :
    calculate_rsi [1, 2] 3 = .ok (List.replicate 2 none) :=
  C5_rsi_short_series [1, 2] 3 (by decide) (by decide)

/-- C6: for every input series and every period ≤ 0, `calculate_moving_average`
and `calculate_rsi` fail immediately with a `ValueError` and produce no partial
result, and `generate_signals` propagates the failure to its caller whenever
any of its three periods is ≤ 0. -/
theorem C6_invalid_period (data : List ℚ) (period sp lp rp : ℤ) (os ob : ℚ)
    (hper : period ≤ 0) (hany : sp ≤ 0 ∨ lp ≤ 0 ∨ rp ≤ 0) :
    calculate_moving_average data period = .error "Period must be positive" ∧
    calculate_rsi data period = .error "RSI period must be positive" ∧
    ∃ e, generate_signals data sp lp rp os ob = .error e := by
  refine ⟨by rw [calculate_moving_average, if_pos hper],
    by rw [calculate_rsi, if_pos hper], ?_⟩
  by_cases hsp : sp ≤ 0
  · exact ⟨"Period must be positive",
      by simp only [generate_signals, calculate_moving_average, if_pos hsp]⟩
  · by_cases hlp : lp ≤ 0
    · refine ⟨"Period must be positive", ?_⟩
      simp only [generate_signals, ma_ok data sp (by omega)]
      simp only [calculate_moving_average, if_pos hlp]
    · have hrp : rp ≤ 0 := by rcases hany with h | h | h <;> omega
      refine ⟨"RSI period must be positive", ?_⟩
      simp only [generate_signals, ma_ok data sp (by omega), ma_ok data lp (by omega)]
      simp only [calculate_rsi, if_pos hrp]

/-- Witness for C6 at period 0 and `(sp, lp, rp) = (1, 1, 0)`. -/
theorem C6_invalid_period_witness :
    calculate_moving_average [1, 2, 3] 0 = .error "Period must be positive" ∧
    calculate_rsi [1, 2, 3] 0 = .error "RSI period must be positive" ∧
    ∃ e, generate_signals [1, 2, 3] 1 1 0 30 70 = .error e :=
  C6_invalid_period [1, 2, 3] 0 1 1 0 30 70 (by decide) (by decide)

theorem signalAt_none {ms ml r : Option ℚ} (os ob : ℚ)
    (h : ms = none ∨ ml = none ∨ r = none) : signalAt ms ml r os ob = "HOLD" := by
  cases ms with
  | none => rfl
  | some s =>
    cases ml with
    | none => rfl
    | some l =>
      cases r with
      | none => rfl
      | some rv => rcases h with h | h | h <;> simp at h

theorem signalAt_tie (x : ℚ) (r : Option ℚ) (os ob : ℚ) :
    signalAt (some x) (some x) r os ob = "HOLD" := by
  cases r with
  | none => rfl
  | some rv => simp [signalAt]

theorem signalAt_cases (ms ml r : Option ℚ) (os ob : ℚ) :
    signalAt ms ml r os ob = "BUY" ∨ signalAt ms ml r os ob = "SELL" ∨
      signalAt ms ml r os ob = "HOLD" := by
  cases ms with
  | none => right; right; rfl
  | some s =>
    cases ml with
    | none => right; right; rfl
    | some l =>
      cases r with
      | none => right; right; rfl
      | some rv =>
          simp only [signalAt]
          by_cases h1 : l < s ∧ rv < os
          · rw [if_pos h1]; left; rfl
          · rw [if_neg h1]
            by_cases h2 : s < l ∧ ob < rv
            · rw [if_pos h2]; right; left; rfl
            · rw [if_neg h2]; right; right; rfl

/-- C3: at each index, `generate_signals` emits HOLD when any indicator is
undefined (regardless of thresholds); when all three are defined it emits BUY
exactly when shortMA > longMA and RSI < oversold, else SELL exactly when
shortMA < longMA and RSI > overbought, else HOLD — in particular a tie
shortMA = longMA always yields HOLD. -/
theorem C3_signal_rule (prices : List ℚ) (sp lp rp : ℤ) (os ob : ℚ)
    (mas mal r : List (Option ℚ)) (sgs : List String)
    (hm : calculate_moving_average prices sp = .ok mas)
    (hl : calculate_moving_average prices lp = .ok mal)
    (hr : calculate_rsi prices rp = .ok r)
    (hs : generate_signals prices sp lp rp os ob = .ok sgs) :
    ∀ i < prices.length,
      ((mas.getD i none = none ∨ mal.getD i none = none ∨ r.getD i none = none) →
        sgs.getD i "" = "HOLD") ∧
      (∀ a b c, mas.getD i none = some a → mal.getD i none = some b →
        r.getD i none = some c →
        sgs.getD i "" =
          if b < a ∧ c < os then "BUY"
          else if a < b ∧ ob < c then "SELL"
          else "HOLD") ∧
      (∀ a c, mas.getD i none = some a → mal.getD i none = some a →
        r.getD i none = some c → sgs.getD i "" = "HOLD") := by
  have hs2 := generate_signals_ok prices sp lp rp os ob mas mal r hm hl hr
  rw [hs] at hs2
  have hsgs : sgs = (List.range prices.length).map (fun i =>
      signalAt (mas.getD i none) (mal.getD i none) (r.getD i none) os ob) := by
    injection hs2
  intro i hi
  rw [hsgs, getD_map_range _ _ hi]
  refine ⟨fun h => signalAt_none os ob h, ?_, ?_⟩
  · intro a b c ha hb hc
    rw [ha, hb, hc]
    rfl
  · intro a c ha hb hc
    rw [ha, hb, hc]
    exact signalAt_tie a (some c) os ob

/-- Witness for C3 at prices `[1, 2, 3]`, all periods 1, thresholds 30/70. -/
theorem C3_signal_rule_witness :
    generate_signals [1, 2, 3] 1 1 1 30 70 = .ok ["HOLD", "HOLD", "HOLD"] ∧
    (["HOLD", "HOLD", "HOLD"] : List String).getD 2 "" = "HOLD" := by
  have hm : calculate_moving_average [1, 2, 3] 1 = .ok [some 1, some 2, some 3] := by
    norm_num [calculate_moving_average, maEntry, List.range_succ,
      show Int.toNat 1 = 1 from rfl]
  have hr : calculate_rsi [1, 2, 3] 1 = .ok [none, some 0, some 0] := by
    norm_num [calculate_rsi, seedAvgGain, seedAvgLoss, gainsOf, lossesOf, deltasOf,
      rsiFrom, rsiVal, rsOf, List.range_succ, List.replicate, show Int.toNat 1 = 1 from rfl]
  have hs : generate_signals [1, 2, 3] 1 1 1 30 70 = .ok ["HOLD", "HOLD", "HOLD"] := by
    rw [generate_signals_ok [1, 2, 3] 1 1 1 30 70 _ _ _ hm hm hr]
    norm_num [List.range_succ, signalAt]
  refine ⟨hs, ?_⟩
  have h := C3_signal_rule [1, 2, 3] 1 1 1 30 70 _ _ _ _ hm hm hr hs
  exact (h 2 (by decide)).2.2 3 0 (by rfl) (by rfl) (by rfl)

/-- C7: for every price series and all periods ≥ 1, all outputs are
index-aligned with the input (same length, in both the degraded and the
computed RSI case), and every signal is one of BUY, SELL, HOLD. -/
theorem C7_alignment (prices : List ℚ) (sp lp rp : ℤ) (os ob : ℚ)
    (hsp : 1 ≤ sp) (hlp : 1 ≤ lp) (hrp : 1 ≤ rp) :
    (∃ l, calculate_moving_average prices sp = .ok l ∧ l.length = prices.length) ∧
    (∃ l, calculate_moving_average prices lp = .ok l ∧ l.length = prices.length) ∧
    (∃ l, calculate_rsi prices rp = .ok l ∧ l.length = prices.length) ∧
    (∃ sgs, generate_signals prices sp lp rp os ob = .ok sgs ∧
      sgs.length = prices.length ∧
      ∀ x ∈ sgs, x = "BUY" ∨ x = "SELL" ∨ x = "HOLD") := by
  obtain ⟨r, hr, hrlen⟩ := rsi_ok prices rp hrp
  refine ⟨⟨_, ma_ok prices sp hsp, by simp⟩, ⟨_, ma_ok prices lp hlp, by simp⟩,
    ⟨r, hr, hrlen⟩,
    ⟨_, generate_signals_ok prices sp lp rp os ob _ _ r
      (ma_ok prices sp hsp) (ma_ok prices lp hlp) hr, by simp, ?_⟩⟩
  intro x hx
  obtain ⟨i, -, rfl⟩ := List.mem_map.mp hx
  exact signalAt_cases _ _ _ os ob

/-- Witness for C7 at prices `[1, 2]`, all periods 1. -/
theorem C7_alignment_witness :
    ∃ sgs, generate_signals [1, 2] 1 1 1 30 70 = .ok sgs ∧ sgs.length = 2 := by
  obtain ⟨-, -, -, sgs, hs, hlen, -⟩ :=
    C7_alignment [1, 2] 1 1 1 30 70 (by decide) (by decide) (by decide)
  exact ⟨sgs, hs, hlen⟩

theorem rsOf_nonneg {ag al : ℚ} (hg : 0 ≤ ag) (hl : 0 ≤ al) : 0 ≤ rsOf ag al := by
  rw [rsOf]
  split_ifs with h
  · exact div_nonneg hg hl
  · exact le_refl 0

theorem rsiVal_bounds {ag al : ℚ} (hg : 0 ≤ ag) (hl : 0 ≤ al) :
    0 ≤ rsiVal ag al ∧ rsiVal ag al ≤ 100 := by
  have hrs := rsOf_nonneg hg hl
  have h1 : (0 : ℚ) < 1 + rsOf ag al := by linarith
  constructor
  · have hle : 100 / (1 + rsOf ag al) ≤ 100 := div_le_self (by norm_num) (by linarith)
    rw [rsiVal]; linarith
  · have hpos : 0 < 100 / (1 + rsOf ag al) := div_pos (by norm_num) h1
    rw [rsiVal]; linarith

theorem mem_gainsOf_nonneg (s : List ℚ) : ∀ x ∈ gainsOf s, 0 ≤ x := by
  intro x hx
  rw [gainsOf] at hx
  obtain ⟨d, -, rfl⟩ := List.mem_map.mp hx
  exact le_max_right d 0

theorem mem_lossesOf_nonneg (s : List ℚ) : ∀ x ∈ lossesOf s, 0 ≤ x := by
  intro x hx
  rw [lossesOf] at hx
  obtain ⟨d, -, rfl⟩ := List.mem_map.mp hx
  exact abs_nonneg _

theorem cast_period_pos {period : ℤ} (hp : 1 ≤ period) : (0 : ℚ) < (period : ℚ) := by
  exact_mod_cast (by omega : (0 : ℤ) < period)

theorem seedAvgGain_nonneg (s : List ℚ) (period : ℤ) (hp : 1 ≤ period) :
    0 ≤ seedAvgGain s period := by
  rw [seedAvgGain]
  refine div_nonneg (List.sum_nonneg fun x hx => ?_) (le_of_lt (cast_period_pos hp))
  exact mem_gainsOf_nonneg s x (List.mem_of_mem_take hx)

theorem seedAvgLoss_nonneg (s : List ℚ) (period : ℤ) (hp : 1 ≤ period) :
    0 ≤ seedAvgLoss s period := by
  rw [seedAvgLoss]
  refine div_nonneg (List.sum_nonneg fun x hx => ?_) (le_of_lt (cast_period_pos hp))
  exact mem_lossesOf_nonneg s x (List.mem_of_mem_take hx)

theorem rsiFrom_mem_bounds (q : ℚ) (hq : 1 ≤ q) :
    ∀ (pairs : List (ℚ × ℚ)) (ag al : ℚ), 0 ≤ ag → 0 ≤ al →
      (∀ x ∈ pairs, 0 ≤ x.1 ∧ 0 ≤ x.2) →
      ∀ y ∈ rsiFrom q ag al pairs, 0 ≤ y ∧ y ≤ 100 := by
  intro pairs
  induction pairs with
  | nil => intro ag al _ _ _ y hy; simp [rsiFrom] at hy
  | cons gl rest ih =>
      intro ag al hg hl hmem y hy
      obtain ⟨g, l⟩ := gl
      have hg0 : 0 ≤ g := (hmem (g, l) (by simp)).1
      have hl0 : 0 ≤ l := (hmem (g, l) (by simp)).2
      have hq0 : (0 : ℚ) < q := by linarith
      have hag : 0 ≤ (ag * (q - 1) + g) / q :=
        div_nonneg (add_nonneg (mul_nonneg hg (by linarith)) hg0) (le_of_lt hq0)
      have hal : 0 ≤ (al * (q - 1) + l) / q :=
        div_nonneg (add_nonneg (mul_nonneg hl (by linarith)) hl0) (le_of_lt hq0)
      rw [rsiFrom] at hy
      rcases List.mem_cons.mp hy with rfl | hy2
      · exact rsiVal_bounds hag hal
      · exact ih _ _ hag hal (fun x hx => hmem x (List.mem_cons_of_mem _ hx)) y hy2

/-- C8: for every price series and every period ≥ 1, every defined value
returned by `calculate_rsi` lies in `[0, 100]` (the smoothed average gain and
loss stay non-negative at every step, so RS ≥ 0 and `100 − 100/(1 + RS)` is
between 0 and 100). -/
theorem C8_rsi_bounded (prices : List ℚ) (period : ℤ) (hp : 1 ≤ period)
    (l : List (Option ℚ)) (hok : calculate_rsi prices period = .ok l) :
    ∀ x : ℚ, some x ∈ l → 0 ≤ x ∧ x ≤ 100 := by
  intro x hx
  by_cases hlen : (prices.length : ℤ) < period + 1
  · rw [rsi_ok_short prices period hp hlen] at hok
    injection hok with hok
    rw [← hok] at hx
    have := List.eq_of_mem_replicate hx
    simp at this
  · rw [rsi_ok_long prices period hp (by omega)] at hok
    injection hok with hok
    rw [← hok] at hx
    rcases List.mem_append.mp hx with h | h
    · have := List.eq_of_mem_replicate h
      simp at this
    · rcases List.mem_cons.mp h with h | h
      · have hxval : x = rsiVal (seedAvgGain prices period) (seedAvgLoss prices period) := by
          injection h
        rw [hxval]
        exact rsiVal_bounds (seedAvgGain_nonneg prices period hp)
          (seedAvgLoss_nonneg prices period hp)
      · obtain ⟨y, hy, hyx⟩ := List.mem_map.mp h
        have hxy : x = y := by injection hyx with h2; exact h2.symm
        rw [hxy]
        refine rsiFrom_mem_bounds (period : ℚ) (by exact_mod_cast hp) _ _ _
          (seedAvgGain_nonneg prices period hp) (seedAvgLoss_nonneg prices period hp)
          ?_ y hy
        rintro ⟨a, b⟩ hab
        obtain ⟨ha, hb⟩ := List.of_mem_zip hab
        exact ⟨mem_gainsOf_nonneg prices a (List.mem_of_mem_drop ha),
          mem_lossesOf_nonneg prices b (List.mem_of_mem_drop hb)⟩

/-- Witness for C8 at `calculate_rsi [1, 2, 3] 1`, whose defined values are 0. -/
theorem C8_rsi_bounded_witness : (0 : ℚ) ≤ 0 ∧ (0 : ℚ) ≤ 100 := by
  have hok : calculate_rsi [1, 2, 3] 1 = .ok [none, some 0, some 0] := by
    norm_num [calculate_rsi, seedAvgGain, seedAvgLoss, gainsOf, lossesOf, deltasOf,
      rsiFrom, rsiVal, rsOf, List.range_succ, List.replicate, show Int.toNat 1 = 1 from rfl]
  exact C8_rsi_bounded [1, 2, 3] 1 (by decide) _ hok 0 (by simp)

theorem maEntry_replicate (c : ℚ) (n : ℕ) (period : ℤ) (hp : 1 ≤ period) (i : ℕ)
    (hi : i < n) (hdef : ¬((i : ℤ) + 1 < period)) :
    maEntry (List.replicate n c) period i = some c := by
  rw [maEntry, if_neg hdef]
  congr 1
  rw [List.drop_replicate, List.take_replicate,
    Nat.min_eq_left (by omega : period.toNat ≤ n - (i + 1 - period.toNat)),
    List.sum_replicate, nsmul_eq_mul, toNat_cast_rat hp,
    mul_div_cancel_left₀ c (ne_of_gt (cast_period_pos hp))]

/-- C9: for every constant price series and any periods ≥ 1 and thresholds,
every defined short and long moving average equals the constant value, and
`generate_signals` returns HOLD at every index. -/
theorem C9_constant_prices (c : ℚ) (n : ℕ) (sp lp rp : ℤ) (os ob : ℚ)
    (hsp : 1 ≤ sp) (hlp : 1 ≤ lp) (hrp : 1 ≤ rp) :
    (∀ l, calculate_moving_average (List.replicate n c) sp = .ok l →
      ∀ x : ℚ, some x ∈ l → x = c) ∧
    (∀ l, calculate_moving_average (List.replicate n c) lp = .ok l →
      ∀ x : ℚ, some x ∈ l → x = c) ∧
    generate_signals (List.replicate n c) sp lp rp os ob =
      .ok (List.replicate n "HOLD") := by
  have hma : ∀ p : ℤ, 1 ≤ p → ∀ l, calculate_moving_average (List.replicate n c) p = .ok l →
      ∀ x : ℚ, some x ∈ l → x = c := by
    intro p hp l hok x hx
    rw [ma_ok _ p hp] at hok
    injection hok with hok
    rw [← hok] at hx
    obtain ⟨i, hi, hix⟩ := List.mem_map.mp hx
    have hin : i < n := by simpa using List.mem_range.mp hi
    by_cases hdef : (i : ℤ) + 1 < p
    · rw [maEntry, if_pos hdef] at hix
      simp at hix
    · rw [maEntry_replicate c n p hp i hin hdef] at hix
      injection hix with h2
      exact h2.symm
  obtain ⟨r, hr, -⟩ := rsi_ok (List.replicate n c) rp hrp
  refine ⟨hma sp hsp, hma lp hlp, ?_⟩
  rw [generate_signals_ok _ sp lp rp os ob _ _ r (ma_ok _ sp hsp) (ma_ok _ lp hlp) hr]
  congr 1
  refine List.eq_replicate_iff.mpr ⟨by simp, ?_⟩
  intro b hb
  obtain ⟨i, hi, rfl⟩ := List.mem_map.mp hb
  have hin : i < n := by simpa using List.mem_range.mp hi
  by_cases hdefs : (i : ℤ) + 1 < sp
  · refine signalAt_none os ob (Or.inl ?_)
    rw [getD_map_range _ _ (by simpa using hin), maEntry, if_pos hdefs]
  · by_cases hdefl : (i : ℤ) + 1 < lp
    · refine signalAt_none os ob (Or.inr (Or.inl ?_))
      rw [getD_map_range _ _ (by simpa using hin), maEntry, if_pos hdefl]
    · rw [getD_map_range _ _ (by simpa using hin),
        getD_map_range _ _ (by simpa using hin),
        maEntry_replicate c n sp hsp i hin hdefs,
        maEntry_replicate c n lp hlp i hin hdefl]
      exact signalAt_tie c _ os ob

/-- Witness for C9 at the constant series `replicate 4 10` with periods 1, 2, 1. -/
theorem C9_constant_prices_witness :
    generate_signals (List.replicate 4 (10 : ℚ)) 1 2 1 30 70 =
      .ok (List.replicate 4 "HOLD") :=
  (C9_constant_prices 10 4 1 2 1 30 70 (by decide) (by decide) (by decide)).2.2

/-- C10: for all periods ≥ 1 every execution path of the three functions is
total on any input series (including the empty series): each returns `ok`
rather than raising, and all outputs have the input's length, so every index
access `ma_short[i]`, `ma_long[i]`, `rsi[i]` made by `generate_signals` over
`range (len prices)` is in bounds. -/
theorem C10_totality (prices : List ℚ) (sp lp rp : ℤ) (os ob : ℚ)
    (hsp : 1 ≤ sp) (hlp : 1 ≤ lp) (hrp : 1 ≤ rp) :
    ∃ mas mal r sgs,
      calculate_moving_average prices sp = .ok mas ∧
      calculate_moving_average prices lp = .ok mal ∧
      calculate_rsi prices rp = .ok r ∧
      generate_signals prices sp lp rp os ob = .ok sgs ∧
      mas.length = prices.length ∧ mal.length = prices.length ∧
      r.length = prices.length ∧ sgs.length = prices.length := by
  obtain ⟨r, hr, hrlen⟩ := rsi_ok prices rp hrp
  exact ⟨_, _, r, _, ma_ok prices sp hsp, ma_ok prices lp hlp, hr,
    generate_signals_ok prices sp lp rp os ob _ _ r
      (ma_ok prices sp hsp) (ma_ok prices lp hlp) hr,
    by simp, by simp, hrlen, by simp⟩

/-- Witness for C10 at the empty price series with all periods 1. -/
theorem C10_totality_witness :
    generate_signals ([] : List ℚ) 1 1 1 30 70 = .ok [] := by
  obtain ⟨mas, mal, r, sgs, -, -, -, h4, -, -, -, h8⟩ :=
    C10_totality [] 1 1 1 30 70 (by decide) (by decide) (by decide)
  have : sgs = [] := List.length_eq_zero.mp h8
  rw [h4, this]

end ConvictionEngine
